import Mathlib

/-!
Shallow embedding of the Lelantos analysis core, translated from
src/services/solanaTrackerService.ts and the duplicated revision in
src/unnamed/part_005: the rate limiter pacing models, the response cache,
the holder-list normalization with its zero-result retry, and the
analyzeTokens overlap/scoring pipeline.  Network calls are abstracted by an
environment record supplying, for each token or wallet address, the value
the corresponding fetch helper would return after its own error handling
(a failed token-metadata fetch is `none`; the other helpers catch their own
errors and return safe defaults in the source).  JSON numbers are modelled
as rationals, string falsiness follows JavaScript (only the empty string is
falsy), and Math.round is the floor of x + 1/2.
-/

attribute [local semireducible] Rat.add Rat.mul Rat.inv Rat.sub

/-! ## JavaScript primitives -/

/-- JS String.prototype.trim: strip leading and trailing whitespace. -/
def jsTrim (s : String) : String :=
  String.mk
    (((s.data.dropWhile Char.isWhitespace).reverse.dropWhile
        Char.isWhitespace).reverse)

/-- The first n characters of a string (String.prototype.slice(0, n)). -/
def strTake (s : String) (n : ℕ) : String :=
  String.mk (s.data.take n)

/-- JS `a || b` on optional strings: an absent or empty string falls through
to the right operand. -/
def jsOrStr (a b : Option String) : Option String :=
  match a with
  | some s => if s = "" then b else some s
  | none => b

/-- JS `a || b` on numbers under the rational model: zero is falsy. -/
def jsOrQ (a b : ℚ) : ℚ :=
  if a = 0 then b else a

/-- JS `a || d` where `a` is an optional string and `d` a default: absent or
empty falls back to the default. -/
def strOrDefault (a : Option String) (d : String) : String :=
  match a with
  | some s => if s = "" then d else s
  | none => d

/-- JS Math.round on the rational model: floor of x + 1/2. -/
def jsRound (q : ℚ) : ℤ :=
  ⌊q + 1 / 2⌋

/-- Spread of `new Set(tags)` back into an array: removes duplicates keeping
the first occurrence of each element, in order. -/
def jsDedup (l : List String) : List String :=
  l.foldl (fun acc x => if x ∈ acc then acc else acc ++ [x]) []

/-! ## Insertion-ordered string-keyed records (JS objects / Maps) -/

/-- Lookup of a key in an insertion-ordered association list, the read
operation of a JS object or Map. -/
def findVal {α : Type} : List (String × α) → String → Option α
  | [], _ => none
  | (k', v) :: rest, k => if k' = k then some v else findVal rest k

/-- Key assignment in an insertion-ordered association list: replaces the
value of an existing key in place, appends a fresh key at the end, the write
operation of a JS object or Map. -/
def setKey {α : Type} : List (String × α) → String → α → List (String × α)
  | [], k, v => [(k, v)]
  | (k', v') :: rest, k, v =>
    if k' = k then (k, v) :: rest else (k', v') :: setKey rest k v

/-! ## Data model (src/types.ts) -/

/-- TokenInfo from src/types.ts, as built by getTokenInfo. -/
structure TokenInfo where
  token : String
  name : String
  symbol : String
  image : Option String
  totalSupply : ℚ
  decimals : ℕ
  holderCount : Option ℕ
  creationTime : Option ℚ
deriving DecidableEq, Repr

/-- Holder from src/types.ts; the upstream wallet identity may appear under
owner, address or wallet. -/
structure Holder where
  owner : Option String
  address : Option String
  wallet : Option String
  amount : ℚ
  percentage : Option ℚ
deriving DecidableEq, Repr

/-- One entry of a wallet trade history, as consumed by analyzeTokens.  The
token reference of a trade is either a plain string (`token`) or an object
carrying a mint (`tokenMint` models `t.token?.mint`); an absent pnl is
modelled as 0, which the source treats identically (falsy). -/
structure Trade where
  token : Option String
  tokenMint : Option String
  time : ℚ
  pnl : ℚ
  tradeType : Option String
deriving DecidableEq, Repr

/-- One entry of the positions array of a PnL response. -/
structure PnlPosition where
  realizedPnl : ℚ
  unrealizedPnl : ℚ
deriving DecidableEq, Repr

/-- A PnL endpoint response, absent numeric fields modelled as 0. -/
structure PnlData where
  totalRealizedPnl : ℚ
  totalUnrealizedPnl : ℚ
  positions : Option (List PnlPosition)
deriving DecidableEq, Repr

/-- A raw entry of a top-traders response; identity may be under wallet,
owner or address, and trade counts under total_trades or trades (absent
numeric fields modelled as 0). -/
structure TraderRaw where
  wallet : Option String
  owner : Option String
  address : Option String
  pnl : ℚ
  roi : ℚ
  totalTrades : ℚ
  trades : ℚ
deriving DecidableEq, Repr

/-- TopTraderMatch from src/types.ts. -/
structure TopTraderMatch where
  token : String
  pnl : ℚ
  roi : ℚ
  trades : ℚ
deriving DecidableEq, Repr

/-- WalletSummary from src/types.ts. -/
structure WalletSummary where
  portfolio_value_usd : ℚ
  total_trades : ℕ
  win_rate : ℤ
  realized_pnl : ℚ
  total_realized_pnl : ℚ
  total_unrealized_pnl : ℚ
  profitable_positions : ℕ
  losing_positions : ℕ
deriving DecidableEq, Repr

/-- WalletOverlap from src/types.ts; optional fields are absent until deep
analysis populates them. -/
structure WalletOverlap where
  address : String
  tokens : List String
  percentages : List (String × ℚ)
  score : Option ℕ
  tags : Option (List String)
  portfolioValue : Option ℚ
  avgHoldingDuration : Option ℚ
  is_top_trader : Option Bool
  top_trader_matches : Option (List TopTraderMatch)
  wallet_summary : Option WalletSummary
deriving DecidableEq, Repr

/-- Per-wallet entry of the walletMap record built during the initial scan. -/
structure WalletData where
  tokens : List String
  percentages : List (String × ℚ)
deriving DecidableEq, Repr

/-- AnalysisResult from src/types.ts. -/
structure AnalysisResult where
  overlaps : List WalletOverlap
  processedTokens : List TokenInfo
  tokenMap : List (String × TokenInfo)
  timestamp : ℚ
deriving DecidableEq, Repr

/-- The environment of one analyzeTokens run: for each address, the value the
corresponding fetch helper returns after its own error handling.  tokenInfo
is `none` when getTokenInfo throws (its failure skips the whole token);
holders, topTraders, walletTrades return [] and walletBasicTotal returns 0
on their caught failures; walletPnL returns `none`; now is Date.now(). -/
structure Env where
  tokenInfo : String → Option TokenInfo
  holders : String → List Holder
  topTraders : String → List TraderRaw
  walletBasicTotal : String → ℚ
  walletTrades : String → List Trade
  walletPnL : String → Option PnlData
  now : ℚ

/-! ## Stable sorting (JS Array.prototype.sort with a consistent comparator) -/

/-- Insert x into l before the first element that does not strictly precede
it, where `prec a b` means the comparator orders a strictly before b.  This
keeps insertion stable: x lands after every earlier element it ties with. -/
def insertByPrec {α : Type} (prec : α → α → Bool) (x : α) : List α → List α
  | [] => [x]
  | y :: ys => if prec y x then y :: insertByPrec prec x ys else x :: y :: ys

/-- Stable sort by the strict-precedence relation of a JS comparator. -/
def sortByPrec {α : Type} (prec : α → α → Bool) (l : List α) : List α :=
  l.foldr (insertByPrec prec) []

/-! ## Holder identity extraction and the initial scan -/

/-- `holder.owner || holder.address || holder.wallet`, then trim; a falsy
chain result or a value trimming to the empty string yields no wallet and
the holder entry is skipped. -/
def extractWallet (h : Holder) : Option String :=
  match jsOrStr (jsOrStr h.owner h.address) h.wallet with
  | none => none
  | some s => if jsTrim s = "" then none else some (jsTrim s)

/-- Holding percentage of one holder entry: prefer the upstream percentage
field, otherwise derive from amount, decimals and total supply. -/
def holderPercent (info : TokenInfo) (h : Holder) : ℚ :=
  match h.percentage with
  | some p => p
  | none =>
    if 0 < info.totalSupply then
      h.amount / (10 : ℚ) ^ info.decimals / info.totalSupply * 100
    else 0

/-- One walletMap update for an extracted wallet: create the entry on first
sight, and record the token and its percentage at most once per token. -/
def updWalletMap (m : List (String × WalletData)) (w tok : String) (p : ℚ) :
    List (String × WalletData) :=
  match findVal m w with
  | none => m ++ [(w, ⟨[tok], [(tok, p)]⟩)]
  | some d =>
    if tok ∈ d.tokens then m
    else setKey m w ⟨d.tokens ++ [tok], setKey d.percentages tok p⟩

/-- Process the holder list of one token into the walletMap (step D of the
initial scan loop). -/
def processHolders (tok : String) (info : TokenInfo) (hs : List Holder)
    (m : List (String × WalletData)) : List (String × WalletData) :=
  hs.foldl
    (fun m h =>
      match extractWallet h with
      | none => m
      | some w => updWalletMap m w tok (holderPercent info h))
    m

/-- `t.wallet || t.owner || t.address` of a top-trader entry; a falsy result
skips the entry. -/
def traderWallet (t : TraderRaw) : Option String :=
  match jsOrStr (jsOrStr t.wallet t.owner) t.address with
  | none => none
  | some s => if s = "" then none else some s

/-- One walletTopTraderMap update (step C of the initial scan loop). -/
def updTopTraderMap (m : List (String × List TopTraderMatch)) (tok : String)
    (t : TraderRaw) : List (String × List TopTraderMatch) :=
  match traderWallet t with
  | none => m
  | some w =>
    let cur := (findVal m w).getD []
    setKey m w (cur ++ [⟨tok, jsOrQ t.pnl 0, jsOrQ t.roi 0,
      jsOrQ (jsOrQ t.totalTrades t.trades) 0⟩])

/-- State threaded through the initial scan loop of analyzeTokens. -/
structure ScanState where
  processedTokens : List TokenInfo
  walletMap : List (String × WalletData)
  tokenMap : List (String × TokenInfo)
  topTraderMap : List (String × List TopTraderMatch)
deriving Repr

/-- One iteration of the initial scan loop: trim the token, skip it when
empty or when its metadata fetch fails, record its info (holderCount set),
fold its top traders, and, when it has holders, fold them into the
walletMap. -/
def scanToken (env : Env) (st : ScanState) (token : String) : ScanState :=
  let cleanToken := jsTrim token
  if cleanToken = "" then st
  else
    match env.tokenInfo cleanToken with
    | none => st
    | some info0 =>
      let holders := env.holders cleanToken
      let info := { info0 with holderCount := some holders.length }
      let st1 : ScanState :=
        { st with
          processedTokens := st.processedTokens ++ [info]
          tokenMap := setKey st.tokenMap cleanToken info }
      let st2 : ScanState :=
        { st1 with
          topTraderMap :=
            (env.topTraders cleanToken).foldl
              (fun m t => updTopTraderMap m cleanToken t) st1.topTraderMap }
      if holders.length = 0 then st2
      else { st2 with walletMap := processHolders cleanToken info holders st2.walletMap }

/-- The whole initial scan. -/
def scanAll (env : Env) (tokens : List String) : ScanState :=
  tokens.foldl (scanToken env) ⟨[], [], [], []⟩

/-! ## Overlap candidates, deep analysis, scoring and tagging -/

/-- A WalletOverlap record as first created from a walletMap entry: no
score, tags, portfolio or summary data yet. -/
def mkOverlap (e : String × WalletData) : WalletOverlap :=
  { address := e.1, tokens := e.2.tokens, percentages := e.2.percentages,
    score := none, tags := none, portfolioValue := none,
    avgHoldingDuration := none, is_top_trader := none,
    top_trader_matches := none, wallet_summary := none }

/-- Step 2 of analyzeTokens: wallets holding at least two tokens. -/
def overlapCandidates (m : List (String × WalletData)) : List WalletOverlap :=
  (m.filter (fun e => 2 ≤ e.2.tokens.length)).map mkOverlap

/-- The pre-scoring sort: by number of held tokens, descending. -/
def preSorted (env : Env) (tokens : List String) : List WalletOverlap :=
  sortByPrec (fun a b => decide (b.tokens.length < a.tokens.length))
    (overlapCandidates (scanAll env tokens).walletMap)

/-- Deep analysis bound: `Math.min(overlaps.length, 50)`. -/
def deepLimit (env : Env) (tokens : List String) : ℕ :=
  min (preSorted env tokens).length 50

/-- Sum of trade pnl values under the falsy guard of the source
(`if (trade.pnl) realizedPnl += trade.pnl`). -/
def tradeRealizedPnl (trades : List Trade) : ℚ :=
  trades.foldl (fun acc t => if t.pnl ≠ 0 then acc + t.pnl else acc) 0

/-- Number of trades with strictly positive pnl. -/
def profitableTradeCount (trades : List Trade) : ℕ :=
  trades.countP (fun t => decide (0 < t.pnl))

/-- The wallet_summary record computed during deep analysis.  When pnl data
is present it is used (positions classified by the sign of realized plus
unrealized pnl); otherwise, when the wallet has trades, realized pnl and the
win rate fall back to the individual trade pnls; otherwise everything is
zero. -/
def mkSummary (basicTotal : ℚ) (trades : List Trade) (pnlData : Option PnlData) :
    WalletSummary :=
  let realizedPnl := tradeRealizedPnl trades
  let profitableTrades := profitableTradeCount trades
  let totalTrades := trades.length
  match pnlData with
  | some pd =>
    let positions := pd.positions.getD []
    let profitablePositions :=
      positions.countP (fun p => decide (0 < p.realizedPnl + p.unrealizedPnl))
    let losingPositions :=
      positions.countP (fun p => decide (p.realizedPnl + p.unrealizedPnl < 0))
    let totalPositions := profitablePositions + losingPositions
    let winRate : ℤ :=
      if 0 < totalPositions then
        jsRound ((profitablePositions : ℚ) / (totalPositions : ℚ) * 100)
      else 0
    { portfolio_value_usd := basicTotal, total_trades := totalTrades,
      win_rate := winRate, realized_pnl := realizedPnl,
      total_realized_pnl := pd.totalRealizedPnl,
      total_unrealized_pnl := pd.totalUnrealizedPnl,
      profitable_positions := profitablePositions,
      losing_positions := losingPositions }
  | none =>
    if totalTrades ≠ 0 then
      { portfolio_value_usd := basicTotal, total_trades := totalTrades,
        win_rate := jsRound ((profitableTrades : ℚ) / (totalTrades : ℚ) * 100),
        realized_pnl := realizedPnl, total_realized_pnl := realizedPnl,
        total_unrealized_pnl := 0,
        profitable_positions := profitableTrades,
        losing_positions := totalTrades - profitableTrades }
    else
      { portfolio_value_usd := basicTotal, total_trades := 0, win_rate := 0,
        realized_pnl := realizedPnl, total_realized_pnl := 0,
        total_unrealized_pnl := 0, profitable_positions := 0,
        losing_positions := 0 }

/-- Does a trade reference the given token (string form or object mint)? -/
def tradeMatchesToken (t : Trade) (tokenHash : String) : Bool :=
  t.token == some tokenHash || t.tokenMint == some tokenHash

/-- Result of the trade pattern analysis loop. -/
structure PatternR where
  sniper : Bool
  flipper : Bool
  diamond : Bool
  maxDuration : ℚ
deriving DecidableEq, Repr

/-- One iteration of the trade pattern analysis loop over an overlapping
token: find its trades, take the earliest as the first trade, and update the
sniper, flipper, diamond-hand flags and the maximal holding duration. -/
def patternStep (now : ℚ) (tokenMap : List (String × TokenInfo))
    (trades : List Trade) (acc : PatternR) (tokenHash : String) : PatternR :=
  match findVal tokenMap tokenHash with
  | none => acc
  | some tokenInfo =>
    let tokenTrades := trades.filter (fun t => tradeMatchesToken t tokenHash)
    match sortByPrec (fun a b => decide (a.time < b.time)) tokenTrades with
    | [] => acc
    | firstTrade :: _ =>
      let firstTradeTime := firstTrade.time * 1000
      let sniper := acc.sniper ||
        (match tokenInfo.creationTime with
         | some ct =>
           decide (0 < firstTradeTime - ct) &&
             decide (firstTradeTime - ct < 10 * 60 * 1000)
         | none => false)
      let flipper := acc.flipper ||
        tokenTrades.any (fun t =>
          t.tradeType == some ("sell") &&
            decide (t.time * 1000 - firstTradeTime < 30 * 60 * 1000))
      let duration := now - firstTradeTime
      let maxDuration := if acc.maxDuration < duration then duration else acc.maxDuration
      let diamond := acc.diamond || decide (24 * 60 * 60 * 1000 < duration)
      ⟨sniper, flipper, diamond, maxDuration⟩

/-- The trade pattern analysis loop of deep analysis. -/
def patternFold (now : ℚ) (tokenMap : List (String × TokenInfo))
    (trades : List Trade) (tokens : List String) : PatternR :=
  tokens.foldl (patternStep now tokenMap trades) ⟨false, false, false, 0⟩

/-- The raw (unclamped) score of one deep-analyzed wallet, accumulated in the
order of the source: capped overlap base, wealth tier bonus, win-rate and
realized-pnl performance bonuses, top-trader bonus, the 5000-dollar
portfolio bonus, the sniper bonus, and the holding-duration bonus. -/
def rawScore (tokensLen : ℕ) (basicTotal : ℚ) (trades : List Trade)
    (pnlData : Option PnlData) (topMatches : List TopTraderMatch)
    (pat : PatternR) : ℕ :=
  min (tokensLen * 2) 8 +
    (if 100000 < basicTotal then 2 else if 10000 < basicTotal then 1 else 0) +
    (if 60 < (mkSummary basicTotal trades pnlData).win_rate ∧ 5 < trades.length
      then 1 else 0) +
    (if 5000 < (mkSummary basicTotal trades pnlData).total_realized_pnl
      then 1 else 0) +
    (if topMatches ≠ [] then 3 else 0) +
    (if 5000 < basicTotal then 2 else 0) +
    (if pat.sniper then 2 else 0) +
    (if (60 * 60 * 1000 : ℚ) < pat.maxDuration then 2 else 0)

/-- The tag list of one deep-analyzed wallet in push order: Top Trader,
Whale, Early Sniper, Diamond Hand, Quick Flipper. -/
def tagList (basicTotal : ℚ) (topMatches : List TopTraderMatch)
    (pat : PatternR) : List String :=
  (if topMatches ≠ [] then ["Top Trader"] else []) ++
    (if 20000 < basicTotal then ["Whale"] else []) ++
    (if pat.sniper then ["Early Sniper"] else []) ++
    (if pat.diamond then ["Diamond Hand"] else []) ++
    (if pat.flipper then ["Quick Flipper"] else [])

/-- The Casual Trader fallback of the source: pushed only onto an empty tag
list (the Top Trader test is kept although it is redundant there). -/
def withFallbackTag (tags : List String) : List String :=
  if tags.length = 0 ∧ ¬ tags.contains ("Top Trader") then
    tags ++ ["Casual Trader"]
  else tags

/-- Deep analysis of one overlap candidate: fetch its basic portfolio value,
trades and pnl through the environment, then populate portfolio value,
wallet summary, top-trader data, score (clamped at 10), deduplicated tags
and average holding duration. -/
def deepAnalyze (env : Env) (tokenMap : List (String × TokenInfo))
    (topTraderMap : List (String × List TopTraderMatch)) (o : WalletOverlap) :
    WalletOverlap :=
  let basicTotal := env.walletBasicTotal o.address
  let trades := env.walletTrades o.address
  let pnlData := env.walletPnL o.address
  let topMatches := (findVal topTraderMap o.address).getD []
  let pat := patternFold env.now tokenMap trades o.tokens
  { o with
    portfolioValue := some basicTotal,
    wallet_summary := some (mkSummary basicTotal trades pnlData),
    is_top_trader := if topMatches ≠ [] then some true else o.is_top_trader,
    top_trader_matches :=
      if topMatches ≠ [] then some topMatches else o.top_trader_matches,
    score := some (min (rawScore o.tokens.length basicTotal trades pnlData
      topMatches pat) 10),
    tags := some (jsDedup (withFallbackTag (tagList basicTotal topMatches pat))),
    avgHoldingDuration := some (pat.maxDuration / (1000 * 60 * 60)) }

/-- The final sort comparator of analyzeTokens as a strict precedence:
higher score first, ties broken by more held tokens first (an absent score
counts as 0). -/
def finalPrec (a b : WalletOverlap) : Bool :=
  decide (b.score.getD 0 < a.score.getD 0) ||
    (a.score.getD 0 == b.score.getD 0 &&
      decide (b.tokens.length < a.tokens.length))

/-- analyzeTokens from src/services/solanaTrackerService.ts: initial scan,
overlap candidates, pre-scoring sort, deep analysis of the first
min(50, overlapCount) candidates, final sort, result assembly. -/
def analyzeTokens (env : Env) (tokens : List String) : AnalysisResult :=
  let st := scanAll env tokens
  let overlaps1 := preSorted env tokens
  let limit := deepLimit env tokens
  let overlaps2 :=
    (overlaps1.take limit).map (deepAnalyze env st.tokenMap st.topTraderMap) ++
      overlaps1.drop limit
  { overlaps := sortByPrec finalPrec overlaps2,
    processedTokens := st.processedTokens,
    tokenMap := st.tokenMap,
    timestamp := env.now }

/-! ## Predicates used to state the overlap claim -/

/-- The token was processed by the initial scan: it is the trim of an input
entry, non-empty, and its metadata fetch succeeded. -/
def tokenProcessed (env : Env) (inputs : List String) (t : String) : Prop :=
  t ∈ inputs.map jsTrim ∧ t ≠ "" ∧ (env.tokenInfo t).isSome

/-- The wallet appears in the holder list of the token, under the identity
extraction of the source (owner, else address, else wallet, trimmed). -/
def walletInHolders (env : Env) (t w : String) : Prop :=
  ∃ h ∈ env.holders t, extractWallet h = some w

instance (env : Env) (inputs : List String) (t : String) :
    Decidable (tokenProcessed env inputs t) :=
  inferInstanceAs (Decidable
    (t ∈ inputs.map jsTrim ∧ t ≠ "" ∧ (env.tokenInfo t).isSome))

instance (env : Env) (t w : String) : Decidable (walletInHolders env t w) :=
  inferInstanceAs (Decidable (∃ h ∈ env.holders t, extractWallet h = some w))

/-! ## Rate limiter, chained-queue revision
(src/services/solanaTrackerService.ts: requestQueue, executeFetch)

Time is in integer milliseconds.  A request is scripted as the list of its
attempt outcomes; executeFetch walks it: a 429 with retries left sleeps
3000 ms and retries, an exhausted 429 or another failure throws at the
response time, a success sleeps the strict 2000 ms settle delay before
returning.  The queue chains requests: each one starts when the previous
one (success or caught failure) finished. -/

/-- Outcome of one fetch attempt, with the response latency. -/
inductive FetchOutcome where
  | ok (latency : ℕ)
  | fail (latency : ℕ)
  | throttled (latency : ℕ)
deriving DecidableEq, Repr

/-- executeFetch of the chained revision: from a start time, remaining 429
retries and the attempt script, the fetch start times, the time the promise
settles, and whether it settled successfully. -/
def execFetch : ℕ → ℕ → List FetchOutcome → List ℕ × ℕ × Bool
  | t, _, [] => ([], t, false)
  | t, _, .ok l :: _ => ([t], t + l + 2000, true)
  | t, _, .fail l :: _ => ([t], t + l, false)
  | t, retries, .throttled l :: rest =>
    if retries = 0 then ([t], t + l, false)
    else
      let r := execFetch (t + l + 3000) (retries - 1) rest
      (t :: r.1, r.2.1, r.2.2)

/-- The request queue of the chained revision: requests run back to back,
each started at the settle time of the previous one; the result is the
concatenated list of fetch start times. -/
def runQueue : ℕ → List (List FetchOutcome) → List ℕ
  | _, [] => []
  | t, s :: ss =>
    let r := execFetch t 2 s
    r.1 ++ runQueue r.2.1 ss

/-- The request queue of the chained revision, annotated per request: each
queued request contributes its list of fetch start times together with
whether it settled successfully, and the next request starts at the settle
time of the previous one.  Joining the start lists gives `runQueue`. -/
def runQueueT : ℕ → List (List FetchOutcome) → List (List ℕ × Bool)
  | _, [] => []
  | t, s :: ss =>
    let r := execFetch t 2 s
    (r.1, r.2.2) :: runQueueT r.2.1 ss

/-- Every pair of successive times is at least `gap` apart. -/
def spaced (gap : ℕ) (l : List ℕ) : Prop :=
  List.Chain' (fun a b => a + gap ≤ b) l

/-- Boolean evaluator for `spaced`. -/
def spacedB (gap : ℕ) : List ℕ → Bool
  | [] => true
  | [_] => true
  | a :: b :: rest => decide (a + gap ≤ b) && spacedB gap (b :: rest)

instance (gap : ℕ) (l : List ℕ) : Decidable (spaced gap l) :=
  decidable_of_iff (spacedB gap l = true) (by
    induction l with
    | nil => simp [spacedB, spaced]
    | cons a rest ih =>
      cases rest with
      | nil => simp [spacedB, spaced]
      | cons b rest2 =>
        rw [show spacedB gap (a :: b :: rest2) =
          (decide (a + gap ≤ b) && spacedB gap (b :: rest2)) from rfl]
        rw [Bool.and_eq_true, decide_eq_true_iff, ih]
        unfold spaced
        rw [List.chain'_cons])

/-- Whether a script settles successfully under the given retry budget. -/
def scriptSucceeds : ℕ → List FetchOutcome → Bool
  | _, [] => false
  | _, .ok _ :: _ => true
  | _, .fail _ :: _ => false
  | retries, .throttled _ :: rest =>
    if retries = 0 then false else scriptSucceeds (retries - 1) rest

/-! ## Rate limiter, slot-reservation revision
(src/unnamed/part_005: MIN_REQUEST_INTERVAL, enforceRateLimit) -/

/-- The reference minimum inter-request interval. -/
def MIN_REQUEST_INTERVAL : ℕ := 2000

/-- enforceRateLimit of the slot-reservation revision: from the stored
nextAllowedTime and the current clock, the time the paced request actually
starts (now plus the computed wait) and the updated nextAllowedTime
(max(now, nextAllowedTime) + MIN_REQUEST_INTERVAL, reserved before
sleeping). -/
def enforceRateLimit (nextAllowedTime now : ℕ) : ℕ × ℕ :=
  let waitTime := if now < nextAllowedTime then nextAllowedTime - now else 0
  (now + waitTime, max now nextAllowedTime + MIN_REQUEST_INTERVAL)

/-- One atomic mutation of the shared nextAllowedTime of the
slot-reservation revision.  Either a reservation performed by
enforceRateLimit at some clock reading (the read, the wait computation and
the slot update are synchronous, so one event per paced request, from any
caller), or the 429 backoff assignment of fetchWithRetry
(`nextAllowedTime = Date.now() + waitTime`), which overwrites the shared
reservation with an absolute value and can move it backwards past slots
other callers already reserved. -/
inductive LimiterEvent where
  | reserve (now : ℕ)
  | backoff (respTime waitTime : ℕ)
deriving DecidableEq, Repr

/-- Is the event a plain reservation (no 429 backoff)? -/
def LimiterEvent.isReserve : LimiterEvent → Bool
  | .reserve _ => true
  | .backoff _ _ => false

/-- The fetch start times produced by a sequence of mutations of the
slot-reservation limiter state: each reservation emits the start time of
its paced fetch and advances nextAllowedTime by the minimum interval; each
429 backoff overwrites nextAllowedTime with the response time plus the
backoff wait. -/
def limiterRun : ℕ → List LimiterEvent → List ℕ
  | _, [] => []
  | na, .reserve now :: rest =>
    let r := enforceRateLimit na now
    r.1 :: limiterRun r.2 rest
  | _, .backoff respTime waitTime :: rest =>
    limiterRun (respTime + waitTime) rest

/-! ## Holder-list fetch with zero-result retry (getTokenHolders) -/

/-- A holders endpoint response: a bare array, an accounts envelope, or a
holders envelope. -/
inductive HolderResponse where
  | bare (hs : List Holder)
  | accountsEnv (hs : List Holder)
  | holdersEnv (hs : List Holder)
deriving DecidableEq, Repr

/-- First-pass normalization of getTokenHolders: accounts envelope, else
holders envelope, else bare array. -/
def normalizeHolders : HolderResponse → List Holder
  | .accountsEnv hs => hs
  | .holdersEnv hs => hs
  | .bare hs => hs

/-- The retry-pass assignment of getTokenHolders: `if (retryData.accounts)
holders = retryData.accounts; else if (retryData.holders) holders =
retryData.holders;` — an envelope (even an empty one, since an empty array
is truthy) replaces the previous value, a bare array leaves it unchanged. -/
def applyRetryData (prev : List Holder) : HolderResponse → List Holder
  | .accountsEnv hs => hs
  | .holdersEnv hs => hs
  | .bare _ => prev

/-- An observable event of getTokenHolders: an outbound request, or a sleep
of the given duration. -/
inductive FetchEvent where
  | request
  | delay (ms : ℕ)
deriving DecidableEq, Repr

/-- getTokenHolders over scripted first and retry responses: normalize the
first response; when it yields zero holders, sleep 2000 ms, fetch once more
and apply the retry assignment; otherwise accept it with a single request.
Returns the holder list and the event trace. -/
def getTokenHolders (first retry : HolderResponse) :
    List Holder × List FetchEvent :=
  let holders := normalizeHolders first
  if holders.length = 0 then
    (applyRetryData holders retry, [.request, .delay 2000, .request])
  else
    (holders, [.request])

/-- What the specification describes for the retry pass: the retry response
normalized the same way as the first one.  Kept only to compare with the
source behaviour. -/
def getTokenHoldersSpecModel (first retry : HolderResponse) :
    List Holder × List FetchEvent :=
  let holders := normalizeHolders first
  if holders.length = 0 then
    (normalizeHolders retry, [.request, .delay 2000, .request])
  else
    (holders, [.request])

/-! ## Token metadata fetch and cache (getTokenInfo) -/

/-- The fields of a token metadata payload (either nested under `token` or
flat), numbers under the rational model. -/
structure TokenDataRaw where
  name : Option String
  symbol : Option String
  image : Option String
  supply : ℚ
  decimals : ℕ
  createdAt : ℚ
deriving DecidableEq, Repr

/-- A token metadata response: `data.token || data` selects the nested
object when present, and totalSupply/decimals are also probed at the top
level first. -/
structure TokenResponse where
  token : Option TokenDataRaw
  topData : TokenDataRaw
  totalSupply : ℚ
  topDecimals : ℕ
deriving DecidableEq, Repr

/-- The TokenInfo record getTokenInfo builds from a response. -/
def buildTokenInfo (tokenAddress : String) (resp : TokenResponse) : TokenInfo :=
  let tokenData := resp.token.getD resp.topData
  { token := tokenAddress,
    name := strOrDefault tokenData.name ("Unknown"),
    symbol := strOrDefault tokenData.symbol (strTake tokenAddress 4),
    image := tokenData.image,
    totalSupply := jsOrQ resp.totalSupply (jsOrQ tokenData.supply 0),
    decimals := if resp.topDecimals = 0 then tokenData.decimals else resp.topDecimals,
    holderCount := none,
    creationTime := if tokenData.createdAt = 0 then none else some tokenData.createdAt }

/-- The session cache of one client instance, keyed by request kind and
subject.  Only the token-info entries matter here. -/
structure ClientCache where
  entries : List (String × TokenInfo)
deriving DecidableEq, Repr

/-- getTokenInfo against a scripted fetch (none models a thrown fetch):
return the cached record without fetching when the key is present;
otherwise fetch, build the record, insert it into the cache and return it.
The last component counts the network requests issued by the call. -/
def getTokenInfoCached (fetchResp : String → Option TokenResponse)
    (tokenAddress : String) (c : ClientCache) :
    Option TokenInfo × ClientCache × ℕ :=
  let cacheKey := "info:" ++ tokenAddress
  match findVal c.entries cacheKey with
  | some cached => (some cached, c, 0)
  | none =>
    match fetchResp tokenAddress with
    | none => (none, c, 1)
    | some resp =>
      let result := buildTokenInfo tokenAddress resp
      (some result, ⟨setKey c.entries cacheKey result⟩, 1)

/-! ## Blank holder entries (claim C10) -/

/-- An optional identity field that is absent or trims to the empty
string. -/
def optBlank (o : Option String) : Prop :=
  match o with
  | none => True
  | some s => jsTrim s = ""

instance : (o : Option String) → Decidable (optBlank o)
  | none => isTrue trivial
  | some s => inferInstanceAs (Decidable (jsTrim s = ""))

/-- A holder entry none of whose identity fields carries usable content:
each of owner, address, wallet is absent or trims to the empty string. -/
def holderBlank (h : Holder) : Prop :=
  optBlank h.owner ∧ optBlank h.address ∧ optBlank h.wallet

instance (h : Holder) : Decidable (holderBlank h) :=
  inferInstanceAs (Decidable
    (optBlank h.owner ∧ optBlank h.address ∧ optBlank h.wallet))

/-! ## Vocabulary for the walletMap invariant -/

/-- The keys of an insertion-ordered association list. -/
def keysOf {α : Type} (m : List (String × α)) : List String :=
  m.map Prod.fst

/-- Key uniqueness of an association list. -/
def NodupKeys {α : Type} (m : List (String × α)) : Prop :=
  (keysOf m).Nodup

/-- The token list recorded for a wallet in the walletMap (empty when the
wallet has no entry). -/
def wTokens (m : List (String × WalletData)) (w : String) : List String :=
  match findVal m w with
  | some d => d.tokens
  | none => []

/-- The invariant of the initial scan: walletMap keys are unique, each
recorded token list is duplicate-free, and a token is recorded for a wallet
exactly when the scan processed it and the wallet appears in its holder
list. -/
def ScanInv (env : Env) (inputs : List String) (st : ScanState) : Prop :=
  NodupKeys st.walletMap ∧
  ∀ w, (wTokens st.walletMap w).Nodup ∧
    ∀ t, t ∈ wTokens st.walletMap w ↔
      tokenProcessed env inputs t ∧ walletInHolders env t w

/-! ## Concrete environments used by the witnesses -/

/-- A holder entry identified by its owner field, with an upstream
percentage of 1. -/
def holderOf (w : String) : Holder :=
  ⟨some w, none, none, 0, some 1⟩

/-- A holder entry whose only identity field trims to the empty string. -/
def blankHolder : Holder :=
  ⟨some (" "), none, some (""), 0, none⟩

/-- A minimal token info record for concrete runs. -/
def infoOf (t : String) : TokenInfo :=
  ⟨t, t, t, none, 0, 0, none, none⟩

/-- A trade carrying only a pnl, referencing no token. -/
def tradeOf (p : ℚ) : Trade :=
  ⟨none, none, 0, p, none⟩

/-- Two tokens A and B; wallet w2 holds both, w1 only A, w3 only B; no
top traders, no wallet data. -/
def envA : Env :=
  { tokenInfo := fun t =>
      if t = "A" then some (infoOf ("A"))
      else if t = "B" then some (infoOf ("B"))
      else none,
    holders := fun t =>
      if t = "A" then [holderOf ("w1"), holderOf ("w2")]
      else if t = "B" then [holderOf ("w2"), holderOf ("w3")]
      else [],
    topTraders := fun _ => [],
    walletBasicTotal := fun _ => 0,
    walletTrades := fun _ => [],
    walletPnL := fun _ => none,
    now := 0 }

/-- The record analyzeTokens produces for wallet w2 under envA. -/
def overlapW2 : WalletOverlap :=
  { address := "w2", tokens := ["A", "B"], percentages := [("A", 1), ("B", 1)],
    score := some 4, tags := some (["Casual Trader"]), portfolioValue := some 0,
    avgHoldingDuration := some 0, is_top_trader := none,
    top_trader_matches := none, wallet_summary := some ⟨0, 0, 0, 0, 0, 0, 0, 0⟩ }

/-- Wallet wx has a null PnL response and three trades with pnls +10, -5,
+20 (the fallback scenario of the specification). -/
def envC7 : Env :=
  { tokenInfo := fun _ => none,
    holders := fun _ => [],
    topTraders := fun _ => [],
    walletBasicTotal := fun _ => 0,
    walletTrades := fun w =>
      if w = "wx" then [tradeOf 10, tradeOf (-5), tradeOf 20] else [],
    walletPnL := fun _ => none,
    now := 0 }

/-- An overlap candidate for wallet wx holding tokens A and B. -/
def overlapC7 : WalletOverlap :=
  mkOverlap (("wx"), ⟨["A", "B"], []⟩)

/-- A concrete token metadata response for the cache witness. -/
def tokenRespX : TokenResponse :=
  ⟨none, ⟨some ("TokX"), some ("TX"), none, 5, 2, 0⟩, 0, 0⟩

/-- A scripted metadata fetch that succeeds only for address X. -/
def fetchX : String → Option TokenResponse :=
  fun a => if a = "X" then some tokenRespX else none


/-! # Theorems

## Generic helper lemmas -/

theorem mem_of_head?_eq {α : Type} {l : List α} {a : α} (h : l.head? = some a) :
    a ∈ l := by
  cases l with
  | nil => simp at h
  | cons x xs =>
    simp only [List.head?_cons, Option.some.injEq] at h
    simp [h]

theorem mem_of_getLast?_eq {α : Type} {l : List α} {a : α}
    (h : l.getLast? = some a) : a ∈ l := by
  induction l with
  | nil => simp at h
  | cons x xs ih =>
    cases xs with
    | nil =>
      simp only [List.getLast?_singleton, Option.some.injEq] at h
      simp [h]
    | cons y ys =>
      rw [List.getLast?_cons_cons] at h
      exact List.mem_cons_of_mem x (ih h)

theorem two_le_length_iff_pair {α : Type} {l : List α} (hn : l.Nodup) :
    2 ≤ l.length ↔ ∃ a b, a ≠ b ∧ a ∈ l ∧ b ∈ l := by
  constructor
  · intro hl
    cases l with
    | nil => simp at hl
    | cons a t =>
      cases t with
      | nil => simp at hl
      | cons b rest =>
        refine ⟨a, b, ?_, by simp, by simp⟩
        intro hab
        subst hab
        simp [List.nodup_cons] at hn
  · rintro ⟨a, b, hab, ha, hb⟩
    cases l with
    | nil => simp at ha
    | cons x t =>
      cases t with
      | nil =>
        simp only [List.mem_singleton] at ha hb
        exact absurd (ha.trans hb.symm) hab
      | cons y rest =>
        simp only [List.length_cons]
        omega

theorem findVal_setKey_self {α : Type} (m : List (String × α)) (k : String)
    (v : α) : findVal (setKey m k v) k = some v := by
  induction m with
  | nil => simp [setKey, findVal]
  | cons e rest ih =>
    obtain ⟨k₀, v₀⟩ := e
    by_cases h0 : k₀ = k
    · subst h0
      simp [setKey, findVal]
    · simp [setKey, findVal, h0, ih]

theorem findVal_setKey_ne {α : Type} (m : List (String × α)) (k k' : String)
    (v : α) (h : k' ≠ k) : findVal (setKey m k v) k' = findVal m k' := by
  have h' : ¬ k = k' := fun hh => h hh.symm
  induction m with
  | nil => simp [setKey, findVal, h']
  | cons e rest ih =>
    obtain ⟨k₀, v₀⟩ := e
    by_cases h0 : k₀ = k
    · subst h0
      simp [setKey, findVal, h']
    · simp [setKey, findVal, h0, ih]

theorem findVal_append_of_none {α : Type} {m₁ : List (String × α)} {k : String}
    (h : findVal m₁ k = none) (m₂ : List (String × α)) :
    findVal (m₁ ++ m₂) k = findVal m₂ k := by
  induction m₁ with
  | nil => simp
  | cons e rest ih =>
    obtain ⟨k₀, v₀⟩ := e
    by_cases h0 : k₀ = k
    · simp [findVal, h0] at h
    · simp only [findVal, if_neg h0] at h
      simpa [findVal, h0] using ih h

theorem findVal_append_of_some {α : Type} {m₁ : List (String × α)} {k : String}
    {v : α} (h : findVal m₁ k = some v) (m₂ : List (String × α)) :
    findVal (m₁ ++ m₂) k = some v := by
  induction m₁ with
  | nil => simp [findVal] at h
  | cons e rest ih =>
    obtain ⟨k₀, v₀⟩ := e
    by_cases h0 : k₀ = k
    · simp only [findVal, if_pos h0] at h
      simp [findVal, h0, h]
    · simp only [findVal, if_neg h0] at h
      simpa [findVal, h0] using ih h

theorem findVal_eq_none_iff {α : Type} (m : List (String × α)) (k : String) :
    findVal m k = none ↔ k ∉ keysOf m := by
  induction m with
  | nil => simp [findVal, keysOf]
  | cons e rest ih =>
    obtain ⟨k₀, v₀⟩ := e
    by_cases h0 : k₀ = k
    · subst h0
      simp [findVal, keysOf]
    · simp [findVal, keysOf, h0, ih, Ne.symm h0]

theorem mem_of_findVal_eq_some {α : Type} {m : List (String × α)} {k : String}
    {v : α} (h : findVal m k = some v) : (k, v) ∈ m := by
  induction m with
  | nil => simp [findVal] at h
  | cons e rest ih =>
    obtain ⟨k₀, v₀⟩ := e
    by_cases h0 : k₀ = k
    · subst h0
      simp only [findVal, if_true, eq_self_iff_true, ite_true,
        Option.some.injEq] at h
      subst h
      exact List.mem_cons_self _ _
    · simp only [findVal, if_neg h0] at h
      exact List.mem_cons_of_mem _ (ih h)

theorem findVal_eq_some_of_mem_nodup {α : Type} {m : List (String × α)}
    {k : String} {v : α} (hn : NodupKeys m) (h : (k, v) ∈ m) :
    findVal m k = some v := by
  induction m with
  | nil => simp at h
  | cons e rest ih =>
    obtain ⟨k₀, v₀⟩ := e
    simp only [NodupKeys, keysOf, List.map_cons, List.nodup_cons] at hn
    rcases List.mem_cons.mp h with h1 | h1
    · rw [Prod.mk.injEq] at h1
      obtain ⟨hk, hv⟩ := h1
      subst hk
      subst hv
      simp [findVal]
    · have hke : ¬ k₀ = k := by
        intro hh
        subst hh
        exact hn.1 (List.mem_map.mpr ⟨(k₀, v), h1, rfl⟩)
      simp only [findVal, if_neg hke]
      exact ih hn.2 h1

theorem keysOf_setKey {α : Type} (m : List (String × α)) (k : String) (v : α) :
    keysOf (setKey m k v) =
      if k ∈ keysOf m then keysOf m else keysOf m ++ [k] := by
  induction m with
  | nil => simp [setKey, keysOf]
  | cons e rest ih =>
    obtain ⟨k₀, v₀⟩ := e
    by_cases h0 : k₀ = k
    · subst h0
      simp [setKey, keysOf]
    · simp only [setKey, if_neg h0, keysOf, List.map_cons] at *
      rw [ih]
      by_cases hk : k ∈ List.map Prod.fst rest
      · simp [hk, Ne.symm h0]
      · simp [hk, Ne.symm h0]

/-! ## jsDedup and stable sort lemmas -/

theorem jsDedup_go_nodup (l : List String) :
    ∀ acc : List String, acc.Nodup →
      (l.foldl (fun acc x => if x ∈ acc then acc else acc ++ [x]) acc).Nodup := by
  induction l with
  | nil => intro acc h; simpa using h
  | cons x xs ih =>
    intro acc h
    simp only [List.foldl_cons]
    by_cases hx : x ∈ acc
    · simpa [hx] using ih acc h
    · have : (acc ++ [x]).Nodup := by simp [List.nodup_append, h, hx]
      simpa [hx] using ih (acc ++ [x]) this

theorem jsDedup_nodup (l : List String) : (jsDedup l).Nodup :=
  jsDedup_go_nodup l [] List.nodup_nil

theorem mem_jsDedup_go (l : List String) (a : String) :
    ∀ acc : List String,
      (a ∈ l.foldl (fun acc x => if x ∈ acc then acc else acc ++ [x]) acc ↔
        a ∈ acc ∨ a ∈ l) := by
  induction l with
  | nil => intro acc; simp
  | cons x xs ih =>
    intro acc
    simp only [List.foldl_cons]
    by_cases hx : x ∈ acc
    · by_cases hax : a = x
      · subst hax
        simp [hx, ih acc, hx]
      · simp [hx, ih acc, hax]
    · simp only [if_neg hx]
      rw [ih (acc ++ [x])]
      simp only [List.mem_append, List.mem_singleton, List.mem_cons, or_assoc]
      tauto

theorem mem_jsDedup (l : List String) (a : String) :
    a ∈ jsDedup l ↔ a ∈ l := by
  unfold jsDedup
  rw [mem_jsDedup_go]
  simp

theorem insertByPrec_perm {α : Type} (prec : α → α → Bool) (x : α)
    (l : List α) : (insertByPrec prec x l).Perm (x :: l) := by
  induction l with
  | nil => simp [insertByPrec]
  | cons y ys ih =>
    by_cases h : prec y x
    · simp only [insertByPrec, if_pos h]
      exact (ih.cons y).trans (List.Perm.swap x y ys)
    · simp [insertByPrec, h]

theorem sortByPrec_perm {α : Type} (prec : α → α → Bool) (l : List α) :
    (sortByPrec prec l).Perm l := by
  induction l with
  | nil => simp [sortByPrec]
  | cons x xs ih =>
    simp only [sortByPrec, List.foldr_cons]
    exact (insertByPrec_perm prec x _).trans (ih.cons x)

theorem exists_mem_iff_of_perm {α : Type} {l l' : List α} (h : l.Perm l')
    (P : α → Prop) : (∃ a ∈ l, P a) ↔ ∃ a ∈ l', P a := by
  constructor
  · rintro ⟨a, ha, hp⟩
    exact ⟨a, h.mem_iff.mp ha, hp⟩
  · rintro ⟨a, ha, hp⟩
    exact ⟨a, h.mem_iff.mpr ha, hp⟩


/-! ## The walletMap invariant of the initial scan -/

theorem wTokens_updWalletMap (m : List (String × WalletData)) (w tok : String)
    (p : ℚ) (w' : String) :
    wTokens (updWalletMap m w tok p) w' =
      if w' = w ∧ tok ∉ wTokens m w then wTokens m w ++ [tok]
      else wTokens m w' := by
  cases hfv : findVal m w with
  | none =>
    have hw : wTokens m w = [] := by simp [wTokens, hfv]
    have hupd : updWalletMap m w tok p = m ++ [(w, ⟨[tok], [(tok, p)]⟩)] := by
      simp [updWalletMap, hfv]
    by_cases hww : w' = w
    · subst hww
      have hfv2 : findVal (m ++ [(w', (⟨[tok], [(tok, p)]⟩ : WalletData))]) w' =
          some ⟨[tok], [(tok, p)]⟩ := by
        rw [findVal_append_of_none hfv]
        simp [findVal]
      simp [hupd, wTokens, hfv2, hfv, hw]
    · have hne : ¬ w = w' := fun hh => hww hh.symm
      have hfv2 : findVal (m ++ [(w, (⟨[tok], [(tok, p)]⟩ : WalletData))]) w' =
          findVal m w' := by
        cases hfv' : findVal m w' with
        | none =>
          rw [findVal_append_of_none hfv']
          simp [findVal, hne]
        | some d => rw [findVal_append_of_some hfv']
      simp [hupd, wTokens, hfv2, hww]
  | some d =>
    have hw : wTokens m w = d.tokens := by simp [wTokens, hfv]
    by_cases htok : tok ∈ d.tokens
    · have hupd : updWalletMap m w tok p = m := by
        simp [updWalletMap, hfv, htok]
      rw [hupd, hw]
      simp [htok]
    · have hupd : updWalletMap m w tok p =
          setKey m w ⟨d.tokens ++ [tok], setKey d.percentages tok p⟩ := by
        simp [updWalletMap, hfv, htok]
      by_cases hww : w' = w
      · subst hww
        simp [hupd, wTokens, findVal_setKey_self, hfv, htok]
      · simp [hupd, wTokens, findVal_setKey_ne m w w' _ hww, hww]

theorem wTokens_processHolders (tok : String) (info : TokenInfo)
    (hs : List Holder) :
    ∀ (m : List (String × WalletData)) (w : String),
      wTokens (processHolders tok info hs m) w =
        if (∃ h ∈ hs, extractWallet h = some w) ∧ tok ∉ wTokens m w
        then wTokens m w ++ [tok] else wTokens m w := by
  induction hs with
  | nil =>
    intro m w
    simp [processHolders]
  | cons h rest ih =>
    intro m w
    have hstep : processHolders tok info (h :: rest) m =
        processHolders tok info rest
          (match extractWallet h with
           | none => m
           | some w₀ => updWalletMap m w₀ tok (holderPercent info h)) := by
      simp [processHolders]
    cases he : extractWallet h with
    | none =>
      rw [hstep]
      simp only [he]
      rw [ih]
      have hiff : (∃ h' ∈ h :: rest, extractWallet h' = some w) ↔
          (∃ h' ∈ rest, extractWallet h' = some w) := by
        simp [he]
      simp only [hiff]
    | some w₀ =>
      rw [hstep]
      simp only [he]
      by_cases hww : w₀ = w
      · subst hww
        rw [ih]
        have hm' := wTokens_updWalletMap m w₀ tok (holderPercent info h) w₀
        simp only [eq_self_iff_true, true_and] at hm'
        by_cases htok : tok ∈ wTokens m w₀
        · rw [if_neg (by simp [htok]) ] at hm'
          rw [hm']
          simp [htok]
        · rw [if_pos htok] at hm'
          have htok2 : tok ∈ wTokens (updWalletMap m w₀ tok (holderPercent info h)) w₀ := by
            rw [hm']
            simp
          rw [if_neg (by simp [htok2])]
          rw [hm']
          rw [if_pos]
          constructor
          · exact ⟨h, by simp, he⟩
          · exact htok
      · rw [ih]
        have hm' := wTokens_updWalletMap m w₀ tok (holderPercent info h) w
        rw [if_neg (fun hcon => hww hcon.1.symm)] at hm'
        rw [hm']
        have hiff : (∃ h' ∈ h :: rest, extractWallet h' = some w) ↔
            (∃ h' ∈ rest, extractWallet h' = some w) := by
          constructor
          · rintro ⟨h', hmem, hext⟩
            rcases List.mem_cons.mp hmem with h1 | h1
            · subst h1
              rw [he] at hext
              exact absurd (Option.some.inj hext) hww
            · exact ⟨h', h1, hext⟩
          · rintro ⟨h', hmem, hext⟩
            exact ⟨h', List.mem_cons_of_mem _ hmem, hext⟩
        simp only [hiff]

theorem NodupKeys_updWalletMap (m : List (String × WalletData)) (w tok : String)
    (p : ℚ) (hn : NodupKeys m) : NodupKeys (updWalletMap m w tok p) := by
  cases hfv : findVal m w with
  | none =>
    have hw : w ∉ keysOf m := (findVal_eq_none_iff m w).mp hfv
    have hupd : updWalletMap m w tok p = m ++ [(w, ⟨[tok], [(tok, p)]⟩)] := by
      simp [updWalletMap, hfv]
    rw [hupd]
    unfold NodupKeys keysOf at *
    simp only [List.map_append, List.map_cons, List.map_nil]
    rw [List.nodup_append]
    exact ⟨hn, List.nodup_singleton w, by simpa using hw⟩
  | some d =>
    by_cases htok : tok ∈ d.tokens
    · have hupd : updWalletMap m w tok p = m := by
        simp [updWalletMap, hfv, htok]
      rw [hupd]
      exact hn
    · have hupd : updWalletMap m w tok p =
          setKey m w ⟨d.tokens ++ [tok], setKey d.percentages tok p⟩ := by
        simp [updWalletMap, hfv, htok]
      have hw : w ∈ keysOf m := by
        by_contra hcon
        rw [← findVal_eq_none_iff] at hcon
        rw [hcon] at hfv
        exact Option.noConfusion hfv
      rw [hupd]
      unfold NodupKeys
      rw [keysOf_setKey, if_pos hw]
      exact hn

theorem NodupKeys_processHolders (tok : String) (info : TokenInfo)
    (hs : List Holder) :
    ∀ m : List (String × WalletData), NodupKeys m →
      NodupKeys (processHolders tok info hs m) := by
  induction hs with
  | nil =>
    intro m hn
    simpa [processHolders] using hn
  | cons h rest ih =>
    intro m hn
    have hstep : processHolders tok info (h :: rest) m =
        processHolders tok info rest
          (match extractWallet h with
           | none => m
           | some w₀ => updWalletMap m w₀ tok (holderPercent info h)) := by
      simp [processHolders]
    rw [hstep]
    cases he : extractWallet h with
    | none =>
      simp only [he]
      exact ih m hn
    | some w₀ =>
      simp only [he]
      exact ih _ (NodupKeys_updWalletMap m w₀ tok _ hn)

theorem tokenProcessed_append (env : Env) (ts0 : List String) (tok : String)
    (t : String) :
    tokenProcessed env (ts0 ++ [tok]) t ↔
      tokenProcessed env ts0 t ∨
        (t = jsTrim tok ∧ t ≠ "" ∧ (env.tokenInfo t).isSome) := by
  unfold tokenProcessed
  simp only [List.map_append, List.map_cons, List.map_nil, List.mem_append,
    List.mem_singleton]
  tauto


theorem scanToken_walletMap_inv (env : Env) (ts0 : List String)
    (st : ScanState) (tok : String) (hinv : ScanInv env ts0 st) :
    ScanInv env (ts0 ++ [tok]) (scanToken env st tok) := by
  obtain ⟨hkeys, hw⟩ := hinv
  unfold scanToken
  by_cases hclean : jsTrim tok = ""
  · rw [if_pos hclean]
    refine ⟨hkeys, fun w => ⟨(hw w).1, fun t => ?_⟩⟩
    rw [(hw w).2 t, tokenProcessed_append]
    constructor
    · intro h1
      exact ⟨Or.inl h1.1, h1.2⟩
    · rintro ⟨h1 | h1, h2⟩
      · exact ⟨h1, h2⟩
      · exact absurd (h1.1.trans hclean) h1.2.1
  · rw [if_neg hclean]
    cases hinfo : env.tokenInfo (jsTrim tok) with
    | none =>
      refine ⟨hkeys, fun w => ⟨(hw w).1, fun t => ?_⟩⟩
      rw [(hw w).2 t, tokenProcessed_append]
      constructor
      · intro h1
        exact ⟨Or.inl h1.1, h1.2⟩
      · rintro ⟨h1 | h1, h2⟩
        · exact ⟨h1, h2⟩
        · rw [h1.1, hinfo] at h1
          simp at h1
    | some info0 =>
      by_cases hhol : (env.holders (jsTrim tok)).length = 0
      · simp only [if_pos hhol]
        have hhol' : env.holders (jsTrim tok) = [] :=
          List.length_eq_zero.mp hhol
        refine ⟨hkeys, fun w => ⟨(hw w).1, fun t => ?_⟩⟩
        rw [(hw w).2 t, tokenProcessed_append]
        constructor
        · intro h1
          exact ⟨Or.inl h1.1, h1.2⟩
        · rintro ⟨h1 | h1, h2⟩
          · exact ⟨h1, h2⟩
          · obtain ⟨heq, -, -⟩ := h1
            subst heq
            unfold walletInHolders at h2
            rw [hhol'] at h2
            simp at h2
      · simp only [if_neg hhol]
        constructor
        · exact NodupKeys_processHolders _ _ _ _ hkeys
        · intro w
          rw [wTokens_processHolders]
          constructor
          · by_cases hcond : (∃ h ∈ env.holders (jsTrim tok),
                extractWallet h = some w) ∧ jsTrim tok ∉ wTokens st.walletMap w
            · rw [if_pos hcond]
              exact List.Nodup.append (hw w).1 (List.nodup_singleton _)
                (by simpa using hcond.2)
            · rw [if_neg hcond]
              exact (hw w).1
          · intro t
            by_cases hcond : (∃ h ∈ env.holders (jsTrim tok),
                extractWallet h = some w) ∧ jsTrim tok ∉ wTokens st.walletMap w
            · rw [if_pos hcond]
              rw [List.mem_append, List.mem_singleton, (hw w).2 t,
                tokenProcessed_append]
              constructor
              · rintro (⟨h1, h2⟩ | h1)
                · exact ⟨Or.inl h1, h2⟩
                · subst h1
                  exact ⟨Or.inr ⟨rfl, hclean, by rw [hinfo]; rfl⟩, hcond.1⟩
              · rintro ⟨h1 | h1, h2⟩
                · exact Or.inl ⟨h1, h2⟩
                · exact Or.inr h1.1
            · rw [if_neg hcond]
              rw [(hw w).2 t, tokenProcessed_append]
              constructor
              · rintro ⟨h1, h2⟩
                exact ⟨Or.inl h1, h2⟩
              · rintro ⟨h1 | h1, h2⟩
                · exact ⟨h1, h2⟩
                · obtain ⟨heq, -, -⟩ := h1
                  subst heq
                  rcases not_and_or.mp hcond with hc | hc
                  · exact absurd h2 hc
                  · rw [not_not] at hc
                    rw [(hw w).2 (jsTrim tok)] at hc
                    exact hc

theorem scanFold_walletMap_inv (env : Env) (ts : List String) :
    ∀ (ts0 : List String) (st : ScanState), ScanInv env ts0 st →
      ScanInv env (ts0 ++ ts) (ts.foldl (scanToken env) st) := by
  induction ts with
  | nil =>
    intro ts0 st h
    simpa using h
  | cons tok rest ih =>
    intro ts0 st h
    have h1 := scanToken_walletMap_inv env ts0 st tok h
    have h2 := ih (ts0 ++ [tok]) (scanToken env st tok) h1
    simpa [List.append_assoc] using h2

theorem scanAll_walletMap_inv (env : Env) (ts : List String) :
    ScanInv env ts (scanAll env ts) := by
  have hbase : ScanInv env [] ⟨[], [], [], []⟩ := by
    refine ⟨by simp [NodupKeys, keysOf], fun w => ⟨by simp [wTokens, findVal], fun t => ?_⟩⟩
    simp [wTokens, findVal, tokenProcessed]
  have h := scanFold_walletMap_inv env ts [] ⟨[], [], [], []⟩ hbase
  simpa [scanAll] using h

/-! ## Membership in the final overlap list -/

theorem deepAnalyze_address (env : Env) (tm : List (String × TokenInfo))
    (ttm : List (String × List TopTraderMatch)) (o : WalletOverlap) :
    (deepAnalyze env tm ttm o).address = o.address := rfl

theorem deepAnalyze_tokens (env : Env) (tm : List (String × TokenInfo))
    (ttm : List (String × List TopTraderMatch)) (o : WalletOverlap) :
    (deepAnalyze env tm ttm o).tokens = o.tokens := rfl

theorem mem_overlaps_iff_walletMap (env : Env) (tokens : List String)
    (w : String) :
    (∃ o ∈ (analyzeTokens env tokens).overlaps, o.address = w) ↔
      ∃ e ∈ (scanAll env tokens).walletMap,
        e.1 = w ∧ 2 ≤ e.2.tokens.length := by
  unfold analyzeTokens
  rw [exists_mem_iff_of_perm (sortByPrec_perm finalPrec _) (fun o => o.address = w)]
  have hsplit :
      (∃ o ∈ ((preSorted env tokens).take (deepLimit env tokens)).map
          (deepAnalyze env (scanAll env tokens).tokenMap
            (scanAll env tokens).topTraderMap) ++
          (preSorted env tokens).drop (deepLimit env tokens), o.address = w) ↔
        ∃ o ∈ preSorted env tokens, o.address = w := by
    constructor
    · rintro ⟨o, ho, haddr⟩
      rcases List.mem_append.mp ho with h1 | h1
      · rcases List.mem_map.mp h1 with ⟨o', ho', rfl⟩
        exact ⟨o', List.mem_of_mem_take ho',
          by rw [deepAnalyze_address] at haddr; exact haddr⟩
      · exact ⟨o, List.mem_of_mem_drop h1, haddr⟩
    · rintro ⟨o, ho, haddr⟩
      rw [← List.take_append_drop (deepLimit env tokens) (preSorted env tokens)]
        at ho
      rcases List.mem_append.mp ho with h1 | h1
      · exact ⟨deepAnalyze env (scanAll env tokens).tokenMap
          (scanAll env tokens).topTraderMap o,
          List.mem_append_left _ (List.mem_map_of_mem _ h1),
          by rw [deepAnalyze_address]; exact haddr⟩
      · exact ⟨o, List.mem_append_right _ h1, haddr⟩
  rw [hsplit]
  unfold preSorted
  refine Iff.trans
    (exists_mem_iff_of_perm (sortByPrec_perm _ _)
      (fun o : WalletOverlap => o.address = w)) ?_
  unfold overlapCandidates
  constructor
  · rintro ⟨o, ho, haddr⟩
    rcases List.mem_map.mp ho with ⟨e, he, rfl⟩
    rcases List.mem_filter.mp he with ⟨hmem, hlen⟩
    exact ⟨e, hmem, haddr, by simpa using hlen⟩
  · rintro ⟨e, he, haddr, hlen⟩
    exact ⟨mkOverlap e, List.mem_map_of_mem _ (List.mem_filter.mpr
      ⟨he, by simpa using hlen⟩), haddr⟩

/-- C1: a wallet address appears in the overlaps list of an analyzeTokens
result if and only if at least two distinct processed tokens (trimmed,
non-empty input entries whose metadata fetch succeeded) have a holder entry
whose extracted identity (owner, else address, else wallet, trimmed) is that
wallet; each token is counted at most once per wallet no matter how often
the wallet occurs in its holder list. -/
theorem analyzeTokens_overlap_mem_iff (env : Env) (tokens : List String)
    (w : String) :
    (∃ o ∈ (analyzeTokens env tokens).overlaps, o.address = w) ↔
      ∃ t₁ t₂, t₁ ≠ t₂ ∧
        (tokenProcessed env tokens t₁ ∧ walletInHolders env t₁ w) ∧
        (tokenProcessed env tokens t₂ ∧ walletInHolders env t₂ w) := by
  rw [mem_overlaps_iff_walletMap]
  obtain ⟨hkeys, hw⟩ := scanAll_walletMap_inv env tokens
  constructor
  · rintro ⟨e, he, haddr, hlen⟩
    subst haddr
    have hfv : findVal (scanAll env tokens).walletMap e.1 = some e.2 :=
      findVal_eq_some_of_mem_nodup hkeys (by simpa using he)
    have hwt : wTokens (scanAll env tokens).walletMap e.1 = e.2.tokens := by
      simp [wTokens, hfv]
    have h2 : 2 ≤ (wTokens (scanAll env tokens).walletMap e.1).length := by
      rw [hwt]
      exact hlen
    obtain ⟨a, b, hab, ha, hb⟩ :=
      (two_le_length_iff_pair ((hw e.1).1)).mp h2
    rw [(hw e.1).2 a] at ha
    rw [(hw e.1).2 b] at hb
    exact ⟨a, b, hab, ha, hb⟩
  · rintro ⟨t₁, t₂, hab, h1, h2⟩
    have ha : t₁ ∈ wTokens (scanAll env tokens).walletMap w :=
      ((hw w).2 t₁).mpr h1
    have hb : t₂ ∈ wTokens (scanAll env tokens).walletMap w :=
      ((hw w).2 t₂).mpr h2
    have h2' : 2 ≤ (wTokens (scanAll env tokens).walletMap w).length :=
      (two_le_length_iff_pair (hw w).1).mpr ⟨t₁, t₂, hab, ha, hb⟩
    cases hfv : findVal (scanAll env tokens).walletMap w with
    | none =>
      have : wTokens (scanAll env tokens).walletMap w = [] := by
        simp [wTokens, hfv]
      rw [this] at h2'
      simp at h2'
    | some d =>
      have hwt : wTokens (scanAll env tokens).walletMap w = d.tokens := by
        simp [wTokens, hfv]
      refine ⟨(w, d), mem_of_findVal_eq_some hfv, rfl, ?_⟩
      rw [← hwt]
      exact h2'

/-! ## Deep analysis bound, score and tag lemmas -/

theorem overlapCandidates_fields {m : List (String × WalletData)}
    {o : WalletOverlap} (ho : o ∈ overlapCandidates m) :
    o.score = none ∧ o.tags = none ∧ o.portfolioValue = none ∧
      o.wallet_summary = none ∧ 2 ≤ o.tokens.length := by
  unfold overlapCandidates at ho
  rcases List.mem_map.mp ho with ⟨e, he, rfl⟩
  rcases List.mem_filter.mp he with ⟨_, hlen⟩
  exact ⟨rfl, rfl, rfl, rfl, by simpa [mkOverlap] using hlen⟩

theorem preSorted_fields {env : Env} {tokens : List String} {o : WalletOverlap}
    (ho : o ∈ preSorted env tokens) :
    o.score = none ∧ o.tags = none ∧ o.portfolioValue = none ∧
      o.wallet_summary = none ∧ 2 ≤ o.tokens.length :=
  overlapCandidates_fields ((sortByPrec_perm _ _).mem_iff.mp ho)

theorem deepAnalyze_score (env : Env) (tm : List (String × TokenInfo))
    (ttm : List (String × List TopTraderMatch)) (o : WalletOverlap) :
    (deepAnalyze env tm ttm o).score =
      some (min (rawScore o.tokens.length (env.walletBasicTotal o.address)
        (env.walletTrades o.address) (env.walletPnL o.address)
        ((findVal ttm o.address).getD [])
        (patternFold env.now tm (env.walletTrades o.address) o.tokens)) 10) :=
  rfl

theorem deepAnalyze_tags (env : Env) (tm : List (String × TokenInfo))
    (ttm : List (String × List TopTraderMatch)) (o : WalletOverlap) :
    (deepAnalyze env tm ttm o).tags =
      some (jsDedup (withFallbackTag (tagList (env.walletBasicTotal o.address)
        ((findVal ttm o.address).getD [])
        (patternFold env.now tm (env.walletTrades o.address) o.tokens)))) :=
  rfl

theorem deepAnalyze_summary (env : Env) (tm : List (String × TokenInfo))
    (ttm : List (String × List TopTraderMatch)) (o : WalletOverlap) :
    (deepAnalyze env tm ttm o).wallet_summary =
      some (mkSummary (env.walletBasicTotal o.address)
        (env.walletTrades o.address) (env.walletPnL o.address)) :=
  rfl

theorem deepAnalyze_portfolioValue (env : Env) (tm : List (String × TokenInfo))
    (ttm : List (String × List TopTraderMatch)) (o : WalletOverlap) :
    (deepAnalyze env tm ttm o).portfolioValue =
      some (env.walletBasicTotal o.address) :=
  rfl

theorem mem_overlaps_cases {env : Env} {tokens : List String}
    {o : WalletOverlap} (ho : o ∈ (analyzeTokens env tokens).overlaps) :
    (∃ o' ∈ (preSorted env tokens).take (deepLimit env tokens),
       o = deepAnalyze env (scanAll env tokens).tokenMap
         (scanAll env tokens).topTraderMap o') ∨
    o ∈ (preSorted env tokens).drop (deepLimit env tokens) := by
  unfold analyzeTokens at ho
  have ho2 := (sortByPrec_perm finalPrec _).mem_iff.mp ho
  rcases List.mem_append.mp ho2 with h1 | h1
  · rcases List.mem_map.mp h1 with ⟨o', ho', rfl⟩
    exact Or.inl ⟨o', ho', rfl⟩
  · exact Or.inr h1

theorem rawScore_le_bound (tokensLen : ℕ) (basicTotal : ℚ)
    (trades : List Trade) (pnlData : Option PnlData)
    (topMatches : List TopTraderMatch) (pat : PatternR) :
    min (tokensLen * 2) 8 ≤
      rawScore tokensLen basicTotal trades pnlData topMatches pat := by
  unfold rawScore
  omega

/-- C3: every populated score in an analyzeTokens result is at most 10 (and,
being a natural number by construction, lies in the closed range from 0 to
10). -/
theorem analyzeTokens_score_le_ten (env : Env) (tokens : List String)
    (o : WalletOverlap) (ho : o ∈ (analyzeTokens env tokens).overlaps)
    (s : ℕ) (hs : o.score = some s) : s ≤ 10 := by
  rcases mem_overlaps_cases ho with ⟨o', ho', rfl⟩ | h1
  · rw [deepAnalyze_score] at hs
    have := Option.some.inj hs
    omega
  · have hfields := preSorted_fields (List.mem_of_mem_drop h1)
    rw [hfields.1] at hs
    exact Option.noConfusion hs

/-- Witness for C3: the concrete two-token run of envA produces wallet w2
with score 4, and the theorem bounds it by 10. -/
theorem analyzeTokens_score_le_ten_witness : (4 : ℕ) ≤ 10 :=
  analyzeTokens_score_le_ten envA ["A", "B"] overlapW2 (by decide) 4
    (by decide)

/-- C9: every populated score in an analyzeTokens result is at least 4: a
deep-analyzed wallet holds at least two tokens, so its capped base
contribution is already 4, every other contribution is non-negative, and
the final clamp only caps from above at 10.  Populated scores therefore lie
in the closed range from 4 to 10. -/
theorem analyzeTokens_score_ge_four (env : Env) (tokens : List String)
    (o : WalletOverlap) (ho : o ∈ (analyzeTokens env tokens).overlaps)
    (s : ℕ) (hs : o.score = some s) : 4 ≤ s ∧ s ≤ 10 := by
  rcases mem_overlaps_cases ho with ⟨o', ho', rfl⟩ | h1
  · rw [deepAnalyze_score] at hs
    have hlen : 2 ≤ o'.tokens.length :=
      (preSorted_fields (List.mem_of_mem_take ho')).2.2.2.2
    have hbase := rawScore_le_bound o'.tokens.length
      (env.walletBasicTotal o'.address) (env.walletTrades o'.address)
      (env.walletPnL o'.address) ((findVal (scanAll env tokens).topTraderMap
        o'.address).getD [])
      (patternFold env.now (scanAll env tokens).tokenMap
        (env.walletTrades o'.address) o'.tokens)
    have := Option.some.inj hs
    omega
  · have hfields := preSorted_fields (List.mem_of_mem_drop h1)
    rw [hfields.1] at hs
    exact Option.noConfusion hs

/-- Witness for C9: the concrete two-token run of envA produces wallet w2
with score 4, which lies in the range from 4 to 10. -/
theorem analyzeTokens_score_ge_four_witness : 4 ≤ 4 ∧ 4 ≤ 10 :=
  analyzeTokens_score_ge_four envA ["A", "B"] overlapW2 (by decide) 4
    (by decide)

/-- C4: analyzeTokens deep-analyzes exactly the first min(50, overlapCount)
candidates of the pre-scoring sort order: the returned overlap list is a
permutation of the deep-analyzed prefix of length deepLimit (which is
min(overlapCount, 50)) followed by the untouched remainder; every candidate
beyond the bound has no score, tags, portfolio value or wallet summary
populated, and every deep-analyzed record has all four populated. -/
theorem analyzeTokens_deep_analysis_bound (env : Env) (tokens : List String) :
    deepLimit env tokens = min (preSorted env tokens).length 50 ∧
    ((analyzeTokens env tokens).overlaps).Perm
      (((preSorted env tokens).take (deepLimit env tokens)).map
        (deepAnalyze env (scanAll env tokens).tokenMap
          (scanAll env tokens).topTraderMap) ++
        (preSorted env tokens).drop (deepLimit env tokens)) ∧
    (∀ o ∈ (preSorted env tokens).drop (deepLimit env tokens),
      o.score = none ∧ o.tags = none ∧ o.portfolioValue = none ∧
        o.wallet_summary = none) ∧
    (∀ o ∈ ((preSorted env tokens).take (deepLimit env tokens)).map
        (deepAnalyze env (scanAll env tokens).tokenMap
          (scanAll env tokens).topTraderMap),
      o.score.isSome ∧ o.tags.isSome ∧ o.portfolioValue.isSome ∧
        o.wallet_summary.isSome) := by
  refine ⟨rfl, sortByPrec_perm finalPrec _, ?_, ?_⟩
  · intro o ho
    have h := preSorted_fields (List.mem_of_mem_drop ho)
    exact ⟨h.1, h.2.1, h.2.2.1, h.2.2.2.1⟩
  · intro o ho
    rcases List.mem_map.mp ho with ⟨o', _, rfl⟩
    rw [deepAnalyze_score, deepAnalyze_tags, deepAnalyze_portfolioValue,
      deepAnalyze_summary]
    exact ⟨rfl, rfl, rfl, rfl⟩

/-! ## Tag set lemmas -/

theorem casual_not_mem_tagList (basicTotal : ℚ)
    (topMatches : List TopTraderMatch) (pat : PatternR) :
    ("Casual Trader") ∉ tagList basicTotal topMatches pat := by
  unfold tagList
  intro h
  rcases List.mem_append.mp h with h1 | h1
  · rcases List.mem_append.mp h1 with h2 | h2
    · rcases List.mem_append.mp h2 with h3 | h3
      · rcases List.mem_append.mp h3 with h4 | h4
        · by_cases hc : topMatches ≠ [] <;> simp [hc] at h4
        · by_cases hc : (20000 : ℚ) < basicTotal <;> simp [hc] at h4
      · by_cases hc : pat.sniper <;> simp [hc] at h3
    · by_cases hc : pat.diamond <;> simp [hc] at h2
  · by_cases hc : pat.flipper <;> simp [hc] at h1

theorem casual_mem_withFallbackTag {basicTotal : ℚ}
    {topMatches : List TopTraderMatch} {pat : PatternR}
    (h : ("Casual Trader") ∈ withFallbackTag (tagList basicTotal topMatches pat)) :
    withFallbackTag (tagList basicTotal topMatches pat) = ["Casual Trader"] := by
  unfold withFallbackTag at *
  by_cases hc : (tagList basicTotal topMatches pat).length = 0 ∧
      ¬ (tagList basicTotal topMatches pat).contains ("Casual Trader") = true
  all_goals by_cases hc2 : (tagList basicTotal topMatches pat).length = 0 ∧
      ¬ (tagList basicTotal topMatches pat).contains ("Top Trader") = true
  · rw [if_pos hc2] at *
    have : tagList basicTotal topMatches pat = [] :=
      List.length_eq_zero.mp hc2.1
    rw [this]
    simp
  · rw [if_neg hc2] at *
    exact absurd h (casual_not_mem_tagList _ _ _)
  · rw [if_pos hc2] at *
    have : tagList basicTotal topMatches pat = [] :=
      List.length_eq_zero.mp hc2.1
    rw [this]
    simp
  · rw [if_neg hc2] at *
    exact absurd h (casual_not_mem_tagList _ _ _)

/-- C5: every populated tag set in an analyzeTokens result is free of
duplicates, and the fallback tag Casual Trader appears only as the sole
element of the set, so it never co-occurs with any other behavioral tag. -/
theorem analyzeTokens_tags_nodup_casual (env : Env) (tokens : List String)
    (o : WalletOverlap) (ho : o ∈ (analyzeTokens env tokens).overlaps)
    (ts : List String) (ht : o.tags = some ts) :
    ts.Nodup ∧ (("Casual Trader") ∈ ts → ts = ["Casual Trader"]) := by
  rcases mem_overlaps_cases ho with ⟨o', ho', rfl⟩ | h1
  · rw [deepAnalyze_tags] at ht
    have hts := Option.some.inj ht
    subst hts
    refine ⟨jsDedup_nodup _, fun hmem => ?_⟩
    rw [mem_jsDedup] at hmem
    rw [casual_mem_withFallbackTag hmem]
    rfl
  · have hfields := preSorted_fields (List.mem_of_mem_drop h1)
    rw [hfields.2.1] at ht
    exact Option.noConfusion ht

/-- Witness for C5: in the concrete envA run, wallet w2 carries exactly the
tag set with the single element Casual Trader, which is duplicate-free. -/
theorem analyzeTokens_tags_nodup_casual_witness :
    (["Casual Trader"] : List String).Nodup ∧
      (("Casual Trader") ∈ (["Casual Trader"] : List String) →
        (["Casual Trader"] : List String) = ["Casual Trader"]) :=
  analyzeTokens_tags_nodup_casual envA ["A", "B"] overlapW2 (by decide)
    (["Casual Trader"]) (by decide)

/-! ## PnL fallback (claim C7) -/

/-- C7: for a deep-analyzed wallet whose PnL endpoint yielded nothing usable
(`none`) but whose trade history is non-empty, the populated wallet summary
derives its realized PnL from the individual trade pnls and its win rate
from their signs: total realized PnL is the sum of the trade pnls, the win
rate is round(profitable/total x 100), and the position counts are the
positive-pnl count and its complement. -/
theorem walletSummary_pnl_fallback (env : Env) (tm : List (String × TokenInfo))
    (ttm : List (String × List TopTraderMatch)) (o : WalletOverlap)
    (h1 : env.walletPnL o.address = none)
    (h2 : env.walletTrades o.address ≠ []) :
    (deepAnalyze env tm ttm o).wallet_summary =
      some (mkSummary (env.walletBasicTotal o.address)
        (env.walletTrades o.address) none) ∧
    (mkSummary (env.walletBasicTotal o.address) (env.walletTrades o.address)
        none).total_realized_pnl =
      tradeRealizedPnl (env.walletTrades o.address) ∧
    (mkSummary (env.walletBasicTotal o.address) (env.walletTrades o.address)
        none).win_rate =
      jsRound ((profitableTradeCount (env.walletTrades o.address) : ℚ) /
        ((env.walletTrades o.address).length : ℚ) * 100) ∧
    (mkSummary (env.walletBasicTotal o.address) (env.walletTrades o.address)
        none).profitable_positions =
      profitableTradeCount (env.walletTrades o.address) ∧
    (mkSummary (env.walletBasicTotal o.address) (env.walletTrades o.address)
        none).losing_positions =
      (env.walletTrades o.address).length -
        profitableTradeCount (env.walletTrades o.address) := by
  have hlen : (env.walletTrades o.address).length ≠ 0 := by
    simpa [List.length_eq_zero] using h2
  refine ⟨by rw [deepAnalyze_summary, h1], ?_, ?_, ?_, ?_⟩ <;>
    simp [mkSummary, hlen]

/-- Witness for C7, the scenario of the specification: PnL endpoint null,
three trades with pnls +10, -5, +20, so the fallback win rate is
round(2/3 x 100) = 67. -/
theorem walletSummary_pnl_fallback_witness :
    Option.map WalletSummary.win_rate
      ((deepAnalyze envC7 [] [] overlapC7).wallet_summary) = some 67 := by
  rw [(walletSummary_pnl_fallback envC7 [] [] overlapC7 (by rfl)
    (by decide)).1]
  decide

/-! ## Blank holder entries (claim C10) -/

theorem extractWallet_eq_none_of_blank (h : Holder) (hb : holderBlank h) :
    extractWallet h = none := by
  obtain ⟨ho, ha, hw, am, pc⟩ := h
  obtain ⟨h1, h2, h3⟩ := hb
  cases ho <;> cases ha <;> cases hw <;>
    simp only [optBlank] at h1 h2 h3 <;>
    simp only [extractWallet, jsOrStr] <;>
    repeat' (first | split_ifs | simp_all)

/-- C10: a holder entry whose identity fields are all absent or trim to the
empty string is silently skipped: processing the holder list with that entry
yields exactly the same walletMap as processing the list without it, so the
entry contributes nothing to the overlap index while the remaining entries
are still processed. -/
theorem processHolders_skips_blank_entry (tok : String) (info : TokenInfo)
    (m : List (String × WalletData)) (h : Holder) (rest : List Holder)
    (hb : holderBlank h) :
    processHolders tok info (h :: rest) m = processHolders tok info rest m := by
  have he := extractWallet_eq_none_of_blank h hb
  simp [processHolders, he]

/-- Witness for C10: a holder entry whose owner is a blank string and whose
other identity fields are absent changes nothing when processed ahead of a
normal entry. -/
theorem processHolders_skips_blank_entry_witness :
    processHolders ("T") (infoOf ("T")) (blankHolder :: [holderOf ("w1")]) [] =
      processHolders ("T") (infoOf ("T")) [holderOf ("w1")] [] :=
  processHolders_skips_blank_entry ("T") (infoOf ("T")) [] blankHolder
    [holderOf ("w1")] (by decide)

/-! ## Rate limiter spacing (claim C2) -/

theorem execFetch_spec (s : List FetchOutcome) :
    ∀ (t retries : ℕ),
      spaced 2000 (execFetch t retries s).1 ∧
      (∀ x ∈ (execFetch t retries s).1, t ≤ x) ∧
      t ≤ (execFetch t retries s).2.1 ∧
      ((execFetch t retries s).2.2 = true →
        ∀ x ∈ (execFetch t retries s).1, x + 2000 ≤ (execFetch t retries s).2.1) := by
  induction s with
  | nil =>
    intro t retries
    simp [execFetch, spaced]
  | cons a rest ih =>
    intro t retries
    cases a with
    | ok l =>
      refine ⟨by simp [execFetch, spaced], by simp [execFetch],
        by simp only [execFetch]; omega, ?_⟩
      intro _ x hx
      simp only [execFetch, List.mem_singleton] at hx
      subst hx
      simp only [execFetch]
      omega
    | fail l =>
      refine ⟨by simp [execFetch, spaced], by simp [execFetch],
        by simp [execFetch], ?_⟩
      intro hsuc
      simp [execFetch] at hsuc
    | throttled l =>
      by_cases hr : retries = 0
      · subst hr
        refine ⟨by simp [execFetch, spaced], by simp [execFetch],
          by simp [execFetch], ?_⟩
        intro hsuc
        simp [execFetch] at hsuc
      · obtain ⟨ih1, ih2, ih3, ih4⟩ := ih (t + l + 3000) (retries - 1)
        have hstep : execFetch t retries (FetchOutcome.throttled l :: rest) =
            (t :: (execFetch (t + l + 3000) (retries - 1) rest).1,
             (execFetch (t + l + 3000) (retries - 1) rest).2.1,
             (execFetch (t + l + 3000) (retries - 1) rest).2.2) := by
          simp [execFetch, hr]
        rw [hstep]
        dsimp only
        refine ⟨?_, ?_, ?_, ?_⟩
        · refine List.Chain'.cons' ih1 ?_
          intro y hy
          have hy' := mem_of_head?_eq hy
          have := ih2 y hy'
          omega
        · intro x hx
          rcases List.mem_cons.mp hx with rfl | hx
          · exact Nat.le_refl x
          · have := ih2 x hx
            omega
        · omega
        · intro hsuc x hx
          rcases List.mem_cons.mp hx with rfl | hx
          · have := ih3
            omega
          · exact ih4 hsuc x hx

theorem execFetch_succeeds (s : List FetchOutcome) :
    ∀ (t retries : ℕ),
      (execFetch t retries s).2.2 = scriptSucceeds retries s := by
  induction s with
  | nil => intro t retries; simp [execFetch, scriptSucceeds]
  | cons a rest ih =>
    intro t retries
    cases a with
    | ok l => simp [execFetch, scriptSucceeds]
    | fail l => simp [execFetch, scriptSucceeds]
    | throttled l =>
      by_cases hr : retries = 0
      · subst hr
        simp [execFetch, scriptSucceeds]
      · simp [execFetch, scriptSucceeds, hr, ih]

theorem runQueue_eq_join (ss : List (List FetchOutcome)) :
    ∀ t : ℕ, runQueue t ss = ((runQueueT t ss).map Prod.fst).flatten := by
  induction ss with
  | nil => intro t; simp [runQueue, runQueueT]
  | cons s rest ih =>
    intro t
    have hq : runQueue t (s :: rest) =
        (execFetch t 2 s).1 ++ runQueue (execFetch t 2 s).2.1 rest := rfl
    have ht : runQueueT t (s :: rest) =
        ((execFetch t 2 s).1, (execFetch t 2 s).2.2) ::
          runQueueT (execFetch t 2 s).2.1 rest := rfl
    rw [hq, ht, List.map_cons, List.flatten_cons, ih]

theorem runQueueT_within (ss : List (List FetchOutcome)) :
    ∀ t : ℕ, ∀ r ∈ runQueueT t ss, spaced 2000 r.1 := by
  induction ss with
  | nil =>
    intro t r hr
    simp [runQueueT] at hr
  | cons s rest ih =>
    intro t r hr
    have ht : runQueueT t (s :: rest) =
        ((execFetch t 2 s).1, (execFetch t 2 s).2.2) ::
          runQueueT (execFetch t 2 s).2.1 rest := rfl
    rw [ht] at hr
    rcases List.mem_cons.mp hr with rfl | hr
    · exact (execFetch_spec s t 2).1
    · exact ih _ r hr

theorem runQueueT_head_ge (ss : List (List FetchOutcome)) (t : ℕ)
    {b : List ℕ × Bool} (hb : (runQueueT t ss).head? = some b) :
    ∀ y ∈ b.1, t ≤ y := by
  cases ss with
  | nil => simp [runQueueT] at hb
  | cons s rest =>
    have ht : runQueueT t (s :: rest) =
        ((execFetch t 2 s).1, (execFetch t 2 s).2.2) ::
          runQueueT (execFetch t 2 s).2.1 rest := rfl
    rw [ht] at hb
    simp only [List.head?_cons, Option.some.injEq] at hb
    subst hb
    exact (execFetch_spec s t 2).2.1

theorem runQueueT_chain (ss : List (List FetchOutcome)) :
    ∀ t : ℕ,
      List.Chain' (fun a b : List ℕ × Bool =>
          a.2 = true → ∀ x ∈ a.1, ∀ y ∈ b.1, x + 2000 ≤ y)
        (runQueueT t ss) := by
  induction ss with
  | nil => intro t; simp [runQueueT]
  | cons s rest ih =>
    intro t
    have ht : runQueueT t (s :: rest) =
        ((execFetch t 2 s).1, (execFetch t 2 s).2.2) ::
          runQueueT (execFetch t 2 s).2.1 rest := rfl
    rw [ht]
    refine List.Chain'.cons' (ih _) ?_
    intro b hb hsuc x hx y hy
    have h1 := (execFetch_spec s t 2).2.2.2 hsuc x hx
    have h2 := runQueueT_head_ge rest (execFetch t 2 s).2.1 hb y hy
    omega

/-- The fetch start time produced by one enforceRateLimit call is the
maximum of the clock and the stored nextAllowedTime, and the reserved
nextAllowedTime is that start plus the minimum interval. -/
theorem enforceRateLimit_eq (na now : ℕ) :
    enforceRateLimit na now = (max now na, max now na + MIN_REQUEST_INTERVAL) := by
  unfold enforceRateLimit
  by_cases h : now < na
  · simp only [if_pos h]
    have : now + (na - now) = na := by omega
    rw [this]
    have : max now na = na := by omega
    rw [this]
  · simp only [if_neg h]
    have : max now na = now := by omega
    rw [this, Nat.add_zero]

theorem limiterRun_spec (events : List LimiterEvent) :
    ∀ na : ℕ, (∀ e ∈ events, e.isReserve = true) →
      spaced MIN_REQUEST_INTERVAL (limiterRun na events) ∧
        ∀ hd ∈ (limiterRun na events).head?, na ≤ hd := by
  induction events with
  | nil =>
    intro na _
    simp [limiterRun, spaced]
  | cons e rest ih =>
    intro na hres
    cases e with
    | backoff rt wt =>
      have := hres _ (List.mem_cons_self _ _)
      simp [LimiterEvent.isReserve] at this
    | reserve now =>
      have hstep : limiterRun na (LimiterEvent.reserve now :: rest) =
          max now na :: limiterRun (max now na + MIN_REQUEST_INTERVAL) rest := by
        simp [limiterRun, enforceRateLimit_eq]
      rw [hstep]
      obtain ⟨ih1, ih2⟩ := ih (max now na + MIN_REQUEST_INTERVAL)
        (fun e' he' => hres e' (List.mem_cons_of_mem _ he'))
      constructor
      · refine List.Chain'.cons' ih1 ?_
        intro y hy
        have := ih2 y hy
        omega
      · intro hd hhd
        simp only [List.head?_cons, Option.mem_def, Option.some.injEq] at hhd
        subst hhd
        omega

/-- Counterexample for C2 as stated, one trace per revision.  Chained-queue
revision: a first request that fails (non-429 error response, zero latency)
settles without the 2000 ms delay, so the next queued request starts
immediately — both fetch start times are 0.  Slot-reservation revision:
three callers reserve slots 0, 2000 and 4000 (nextAllowedTime 6000); the
first request receives a 429 at time 100 and its backoff assignment
overwrites nextAllowedTime with 100 + 5000 = 5100, rewinding it past the
outstanding slot, so a fourth caller reserving at clock 200 starts at 5100,
only 1100 ms after the fetch reserved at 4000. -/
theorem rateLimiter_spacing_counterexample :
    (runQueue 0 [[.fail 0], [.ok 0]] = [0, 0] ∧
      ¬ spaced 2000 (runQueue 0 [[.fail 0], [.ok 0]])) ∧
    (limiterRun 0 [.reserve 0, .reserve 0, .reserve 0, .backoff 100 5000,
        .reserve 200] = [0, 2000, 4000, 5100] ∧
      ¬ spaced 2000 (limiterRun 0 [.reserve 0, .reserve 0, .reserve 0,
        .backoff 100 5000, .reserve 200])) := by
  decide

/-- C2 amended: the later of two successive requests starts at least
2000 ms after the earlier one provided the earlier request was not
derailed.  Slot-reservation revision: every run whose limiter events are
reservations only (no request received a 429 backoff, which overwrites the
shared reservation absolutely and can rewind it) is spaced by
MIN_REQUEST_INTERVAL unconditionally, whatever the callers and their clock
readings.  Chained-queue revision: the queue trace joins to the flat start
list, the retry attempts within any single request are always spaced by at
least 2000 ms, and for every pair of consecutive requests whose earlier
request settled successfully, every fetch of the later request starts at
least 2000 ms after every fetch of the earlier one (a failed request
imposes no settle delay on its successor). -/
theorem rateLimiter_spacing_amended :
    (∀ (nextAllowed : ℕ) (events : List LimiterEvent),
      (∀ e ∈ events, e.isReserve = true) →
        spaced MIN_REQUEST_INTERVAL (limiterRun nextAllowed events)) ∧
    (∀ (t : ℕ) (scripts : List (List FetchOutcome)),
      runQueue t scripts = ((runQueueT t scripts).map Prod.fst).flatten ∧
      (∀ r ∈ runQueueT t scripts, spaced 2000 r.1) ∧
      List.Chain' (fun a b : List ℕ × Bool =>
          a.2 = true → ∀ x ∈ a.1, ∀ y ∈ b.1, x + 2000 ≤ y)
        (runQueueT t scripts)) :=
  ⟨fun na events h => (limiterRun_spec events na h).1,
   fun t scripts =>
     ⟨runQueue_eq_join scripts t, runQueueT_within scripts t,
      runQueueT_chain scripts t⟩⟩

/-- Witness for the amended C2: a concrete reservation-only slot run is
spaced by the interval, and a concrete queue in which a successful request
precedes a failing one joins to the flat trace [0, 2005] — the pair the
per-pair guarantee covers even though the second request fails. -/
theorem rateLimiter_spacing_amended_witness :
    spaced MIN_REQUEST_INTERVAL
      (limiterRun 0 [.reserve 0, .reserve 0, .reserve 5000]) ∧
    runQueue 0 [[.ok 5], [.fail 0]] =
      ((runQueueT 0 [[.ok 5], [.fail 0]]).map Prod.fst).flatten :=
  ⟨rateLimiter_spacing_amended.1 0 [.reserve 0, .reserve 0, .reserve 5000]
      (by decide),
   (rateLimiter_spacing_amended.2 0 [[.ok 5], [.fail 0]]).1⟩

/-! ## Holder fetch retry (claim C6) -/

/-- Counterexample for C6 as stated: when the first response normalizes to
zero holders and the retry response is a bare array, the source retry logic
(which only probes the accounts and holders envelopes) ignores it, while
normalizing the retry response the same way as the first would return the
bare array; the two disagree on a concrete input. -/
theorem getTokenHolders_retry_counterexample :
    (getTokenHolders (.holdersEnv []) (.bare [holderOf ("w1")])).1 = [] ∧
      (getTokenHoldersSpecModel (.holdersEnv [])
        (.bare [holderOf ("w1")])).1 = [holderOf ("w1")] ∧
      getTokenHolders (.holdersEnv []) (.bare [holderOf ("w1")]) ≠
        getTokenHoldersSpecModel (.holdersEnv []) (.bare [holderOf ("w1")]) := by
  decide

/-- C6 amended: a non-empty first response is accepted after a single
request with no retry; a first response normalizing to zero holders
triggers exactly one retry after a fixed 2000 ms delay, whose response is
normalized by the envelope fields only — an accounts or holders envelope
(even empty) replaces the result, while a bare-array retry response is
ignored and the empty first result is kept. -/
theorem getTokenHolders_retry_behavior (first retry : HolderResponse)
    (hs : List Holder) :
    (normalizeHolders first ≠ [] →
      getTokenHolders first retry = (normalizeHolders first, [.request])) ∧
    (normalizeHolders first = [] →
      getTokenHolders first retry =
        (applyRetryData [] retry, [.request, .delay 2000, .request]) ∧
      getTokenHolders first (.accountsEnv hs) =
        (hs, [.request, .delay 2000, .request]) ∧
      getTokenHolders first (.holdersEnv hs) =
        (hs, [.request, .delay 2000, .request]) ∧
      getTokenHolders first (.bare hs) =
        ([], [.request, .delay 2000, .request])) := by
  constructor
  · intro h
    have hlen : ¬ (normalizeHolders first).length = 0 := by
      simpa [List.length_eq_zero] using h
    simp [getTokenHolders, hlen]
  · intro h
    have hlen : (normalizeHolders first).length = 0 := by
      simp [h]
    refine ⟨?_, ?_, ?_, ?_⟩ <;>
      simp [getTokenHolders, hlen, h, applyRetryData]

/-- Witness for the amended C6: with an empty holders-envelope first
response, an accounts-envelope retry is taken, while a bare-array retry is
ignored; a non-empty first response issues a single request. -/
theorem getTokenHolders_retry_behavior_witness :
    getTokenHolders (.holdersEnv []) (.accountsEnv [holderOf ("w1")]) =
      ([holderOf ("w1")], [.request, .delay 2000, .request]) ∧
    getTokenHolders (.bare [holderOf ("w2")]) (.bare []) =
      ([holderOf ("w2")], [.request]) :=
  ⟨((getTokenHolders_retry_behavior (.holdersEnv [])
      (.accountsEnv [holderOf ("w1")]) [holderOf ("w1")]).2 (by decide)).2.1,
   (getTokenHolders_retry_behavior (.bare [holderOf ("w2")]) (.bare [])
      []).1 (by decide)⟩

/-! ## Token metadata cache (claim C8) -/

/-- C8: for a fresh cache key, a successful getTokenInfo call issues exactly
one request, inserts the built record into the cache before returning it,
and a second call for the same address is served from the cache with zero
requests, returning the identical record — two calls, at most one request. -/
theorem getTokenInfo_cache_idempotent (fetchResp : String → Option TokenResponse)
    (tokenAddress : String) (c : ClientCache) (resp : TokenResponse)
    (hc : findVal c.entries ("info:" ++ tokenAddress) = none)
    (hf : fetchResp tokenAddress = some resp) :
    getTokenInfoCached fetchResp tokenAddress c =
      (some (buildTokenInfo tokenAddress resp),
       ⟨setKey c.entries ("info:" ++ tokenAddress)
         (buildTokenInfo tokenAddress resp)⟩, 1) ∧
    findVal (setKey c.entries ("info:" ++ tokenAddress)
        (buildTokenInfo tokenAddress resp)) ("info:" ++ tokenAddress) =
      some (buildTokenInfo tokenAddress resp) ∧
    getTokenInfoCached fetchResp tokenAddress
        ⟨setKey c.entries ("info:" ++ tokenAddress)
          (buildTokenInfo tokenAddress resp)⟩ =
      (some (buildTokenInfo tokenAddress resp),
       ⟨setKey c.entries ("info:" ++ tokenAddress)
         (buildTokenInfo tokenAddress resp)⟩, 0) := by
  refine ⟨?_, findVal_setKey_self _ _ _, ?_⟩
  · simp [getTokenInfoCached, hc, hf]
  · simp [getTokenInfoCached, findVal_setKey_self]

/-- Witness for C8: a concrete client with an empty cache fetches address X
once, caches the built record, and the repeated call is a pure cache hit. -/
theorem getTokenInfo_cache_idempotent_witness :
    getTokenInfoCached fetchX ("X") ⟨[]⟩ =
      (some (buildTokenInfo ("X") tokenRespX),
       ⟨setKey [] ("info:" ++ ("X")) (buildTokenInfo ("X") tokenRespX)⟩, 1) ∧
    findVal (setKey [] ("info:" ++ ("X")) (buildTokenInfo ("X") tokenRespX))
        ("info:" ++ ("X")) = some (buildTokenInfo ("X") tokenRespX) ∧
    getTokenInfoCached fetchX ("X")
        ⟨setKey [] ("info:" ++ ("X")) (buildTokenInfo ("X") tokenRespX)⟩ =
      (some (buildTokenInfo ("X") tokenRespX),
       ⟨setKey [] ("info:" ++ ("X")) (buildTokenInfo ("X") tokenRespX)⟩, 0) :=
  getTokenInfo_cache_idempotent fetchX ("X") ⟨[]⟩ tokenRespX (by decide)
    (by decide)
